import Mathlib

/-!
# markdownTool.go: path handling and control flow of `main`

A shallow embedding of `src/markdownTool.go`.  Go strings are byte sequences, so a
string is a list of bytes.  The functions of the Go standard library that the
program calls (`path/filepath`, `strings`, on a Unix system) are embedded next to
the program's own functions, loop by loop.  The operating system and the
markdown library are an environment record: what `user.Current()` and
`os.Getwd()` return (a value or an error), the file system's answers and the
renderer.
-/

namespace MarkdownTool

/-- A Go string: an immutable sequence of bytes. -/
abbrev GoString := List UInt8

/-- The bytes of an ASCII literal. -/
def str (s : String) : GoString := s.toList.map (fun c => c.toNat.toUInt8)

/-- Conversion `string(b)` of a byte: the UTF-8 encoding of the code point `b`
(one byte below 0x80, two bytes from 0x80 on). -/
def stringOfByte (b : UInt8) : GoString :=
  if b < 128 then [b] else [(192 : UInt8) ||| (b >>> 6), (128 : UInt8) ||| (b &&& 63)]

/-! ## package strings -/

namespace strings

/-- Go: `len(s) >= len(prefix) && s[0:len(prefix)] == prefix`. -/
def HasPrefix (s pre : GoString) : Bool :=
  decide (pre.length ≤ s.length) && s.take pre.length == pre

/-- Go: `len(s) >= len(suffix) && s[len(s)-len(suffix):] == suffix`. -/
def HasSuffix (s suffix : GoString) : Bool :=
  decide (suffix.length ≤ s.length) && s.drop (s.length - suffix.length) == suffix

/-- Go: `if HasSuffix(s, suffix) { return s[:len(s)-len(suffix)] }; return s`. -/
def TrimSuffix (s suffix : GoString) : GoString :=
  if HasSuffix s suffix then s.take (s.length - suffix.length) else s

/-- Index of the first instance of `sub` in `s`, `none` for Go's `-1`. -/
def Index : GoString → GoString → Option Nat
  | [], sub => if sub = [] then some 0 else none
  | c :: t, sub =>
    if HasPrefix (c :: t) sub then some 0
    else (Index t sub).map (fun i => i + 1)

/-- The loop of `strings.Count` for a non-empty `sub`:
`for { i := Index(s, sub); if i == -1 { return n }; n++; s = s[i+len(sub):] }`.
Every turn drops at least one byte of `s`, so `len(s) + 1` turns are enough. -/
def countLoop (sub : GoString) : Nat → GoString → Nat → Nat
  | 0, _, n => n
  | fuel + 1, s, n =>
    match Index s sub with
    | none => n
    | some i => countLoop sub fuel (s.drop (i + sub.length)) (n + 1)

/-- Number of non-overlapping instances of a non-empty `sub` in `s`. -/
def Count (s sub : GoString) : Nat := countLoop sub (s.length + 1) s 0

/-- The loop of `strings.Replace` for a non-empty `old`, on `rest = s[start:]`:
`for i := 0; i < n; i++ { j := start + Index(s[start:], old);
b.WriteString(s[start:j]); b.WriteString(new); start = j + len(old) }`
followed by `b.WriteString(s[start:])`.  The library runs it with
`n ≤ Count(s, old)`, so `Index` finds an instance on every turn. -/
def replaceLoop (old new : GoString) : Nat → GoString → GoString
  | 0, rest => rest
  | i + 1, rest =>
    match Index rest old with
    | none => rest
    | some j => rest.take j ++ new ++ replaceLoop old new i (rest.drop (j + old.length))

/-- Go's `strings.Replace(s, old, new, n)` for a non-empty `old` (the program's
only call passes the constant "~"; the empty `old` of the library, which inserts
between runes, is outside the domain of this definition). -/
def Replace (s old new : GoString) (n : Int) (_hold : old ≠ []) : GoString :=
  if old = new ∨ n = 0 then s
  else
    let m := Count s old
    if m = 0 then s
    else
      let k : Nat := if n < 0 ∨ (m : Int) < n then m else n.toNat
      replaceLoop old new k s

/-- Go's `strings.Join(elems, sep)`. -/
def Join : List GoString → GoString → GoString
  | [], _ => []
  | [e], _ => e
  | e :: e' :: es, sep => e ++ sep ++ Join (e' :: es) sep

end strings

/-! ## package path/filepath (Unix: separator '/', no volume names) -/

namespace filepath

/-- The loop of `filepath.Ext`, scanning from the last byte backwards:
`for i := len(path)-1; i >= 0 && !os.IsPathSeparator(path[i]); i-- {
if path[i] == '.' { return path[i:] } }; return ""`.
The first argument is `path[0..i]` reversed (its head is `path[i]`), the second
is `path[i+1:]`. -/
def extLoop : GoString → GoString → GoString
  | [], _ => []
  | c :: rev, acc =>
    if c = 47 then []
    else if c = 46 then c :: acc
    else extLoop rev (c :: acc)

/-- Go's `filepath.Ext`: the suffix beginning at the final dot in the final
element of `path`, empty if there is no dot. -/
def Ext (path : GoString) : GoString := extLoop path.reverse []

/-- The loop of `filepath.Split`:
`i := len(path)-1; for i >= 0 && !os.IsPathSeparator(path[i]) { i-- };
return path[:i+1], path[i+1:]`, with `path[0..i]` reversed and `path[i+1:]`. -/
def splitLoop : GoString → GoString → GoString × GoString
  | [], file => ([], file)
  | c :: rev, file =>
    if c = 47 then ((c :: rev).reverse, file)
    else splitLoop rev (c :: file)

/-- Go's `filepath.Split`: directory (with its final separator) and file. -/
def Split (path : GoString) : GoString × GoString := splitLoop path.reverse []

/-- The backtracking loop of the `..` case of `Clean`, on the write index `w`:
`for out.w > dotdot && !os.IsPathSeparator(out.index(out.w)) { out.w-- }`. -/
def backtrackLoop (out : GoString) (dotdot : Nat) : Nat → Nat
  | 0 => 0
  | w + 1 =>
    if dotdot < w + 1 ∧ out.getD (w + 1) 0 ≠ 47 then backtrackLoop out dotdot w
    else w + 1

/-- The copying loop of the default case of `Clean`:
`for ; r < n && !os.IsPathSeparator(path[r]); r++ { out.append(path[r]) }`.
Takes `path[r:]` and the buffer, returns the new `path[r:]` and the buffer. -/
def copyElem : GoString → GoString → GoString × GoString
  | [], out => ([], out)
  | c :: t, out =>
    if c = 47 then (c :: t, out)
    else copyElem t (out ++ [c])

/-- The main loop `for r < n { switch { ... } }` of `filepath.Clean`.  `rest` is
`path[r:]`; `out` is the written part `buf[0..w)` of the lazy buffer, so `w` is
`out.length`.  Every turn consumes at least one byte of `rest`, so `n` turns are
enough; the first argument counts them. -/
def cleanLoop (rooted : Bool) : Nat → GoString → GoString → Nat → GoString
  | 0, _, out, _ => out
  | fuel + 1, rest, out, dotdot =>
    match rest with
    | [] => out
    | c :: t =>
      if c = 47 then
        -- empty path element
        cleanLoop rooted fuel t out dotdot
      else if c = 46 ∧ (t = [] ∨ t.head? = some 47) then
        -- . element
        cleanLoop rooted fuel t out dotdot
      else if c = 46 ∧ t.head? = some 46 ∧ (t.tail = [] ∨ t.tail.head? = some 47) then
        -- .. element: remove to last separator
        if dotdot < out.length then
          -- can backtrack
          cleanLoop rooted fuel t.tail
            (out.take (backtrackLoop out dotdot (out.length - 1))) dotdot
        else if rooted = false then
          -- cannot backtrack, but not rooted, so append .. element
          let out1 := if 0 < out.length then out ++ [47] else out
          let out2 := out1 ++ [46, 46]
          cleanLoop rooted fuel t.tail out2 out2.length
        else
          cleanLoop rooted fuel t.tail out dotdot
      else
        -- real path element: add slash if needed, copy element
        let out1 :=
          if (rooted = true ∧ out.length ≠ 1) ∨ (rooted = false ∧ out.length ≠ 0)
          then out ++ [47] else out
        let (rest1, out2) := copyElem (c :: t) out1
        cleanLoop rooted fuel rest1 out2 dotdot

/-- Go's `filepath.Clean`. -/
def Clean (path : GoString) : GoString :=
  match path with
  | [] => [46]
  | c :: t =>
    let rooted : Bool := decide (c = 47)
    let out :=
      if rooted then cleanLoop rooted (c :: t).length t [47] 1
      else cleanLoop rooted (c :: t).length (c :: t) [] 0
    -- Turn empty string into "."
    if out.length = 0 then [46] else out

/-- Go's `filepath.Join`: the elements from the first non-empty one on, joined
with the separator and cleaned. -/
def Join : List GoString → GoString
  | [] => []
  | e :: es =>
    if e ≠ [] then Clean (strings.Join (e :: es) [47])
    else Join es

/-- Go's `filepath.IsAbs` on Unix. -/
def IsAbs (path : GoString) : Bool := strings.HasPrefix path [47]

/-- Go's `filepath.Abs` on Unix, both results: the path and the error (`none`
for nil).  An absolute path is cleaned.  Otherwise `os.Getwd()` is called, whose
result is `getwd`: on an error the results are "" and that error, else they are
`Join(wd, path)` and nil. -/
def Abs (getwd : Except GoString GoString) (path : GoString) : GoString × Option GoString :=
  if IsAbs path then (Clean path, none)
  else
    match getwd with
    | .error err => ([], some err)
    | .ok wd => (Join [wd, path], none)

/-- The loop of `filepath.Base` that strips trailing slashes, on the reversed
path. -/
def stripTrailing : GoString → GoString
  | [] => []
  | c :: rev => if c = 47 then stripTrailing rev else c :: rev

/-- Go's `filepath.Base`: the last element of `path`. -/
def Base (path : GoString) : GoString :=
  if path = [] then [46]
  else
    let path1 := (stripTrailing path.reverse).reverse
    let path2 := (Split path1).2
    if path2 = [] then [47] else path2

end filepath

/-! ## The environment -/

/-- The part of `github.com/russross/blackfriday` the program uses.  The library
is not in the repository: its flag constants and its renderer are parameters.
`MarkdownOptions input htmlFlags title css extensions` stands for
`blackfriday.MarkdownOptions(input, blackfriday.HtmlRenderer(htmlFlags, title, css),
blackfriday.Options{Extensions: extensions})`. -/
structure Blackfriday where
  HTML_USE_XHTML : Nat
  HTML_USE_SMARTYPANTS : Nat
  HTML_SMARTYPANTS_FRACTIONS : Nat
  HTML_SMARTYPANTS_LATEX_DASHES : Nat
  EXTENSION_NO_INTRA_EMPHASIS : Nat
  EXTENSION_TABLES : Nat
  EXTENSION_FENCED_CODE : Nat
  EXTENSION_AUTOLINK : Nat
  EXTENSION_STRIKETHROUGH : Nat
  EXTENSION_SPACE_HEADERS : Nat
  EXTENSION_HEADER_IDS : Nat
  EXTENSION_BACKSLASH_LINE_BREAK : Nat
  EXTENSION_DEFINITION_LISTS : Nat
  EXTENSION_HARD_LINE_BREAK : Nat
  MarkdownOptions : GoString → Nat → GoString → GoString → Nat → GoString

/-- What the program asks of its surroundings.  `Current` is the result of
`user.Current()`: the `HomeDir` of the user, or `none` when the call returns an
error and a nil `*User`.  `Getwd` is the result of `os.Getwd()`: the working
directory or an error text.  `ReadFile` is `ioutil.ReadFile` (content or error
text); `WriteFile` is `ioutil.WriteFile` (`none` for a nil error, otherwise the
error text). -/
structure Env where
  Current : Option GoString
  Getwd : Except GoString GoString
  ReadFile : GoString → Except GoString GoString
  WriteFile : GoString → GoString → Nat → Option GoString
  bf : Blackfriday

/-- How a function of the program ends: with a value, in `log.Fatal` (the
message is logged and the process exits with status 1), or in a run-time panic. -/
inductive Result (α : Type) where
  | ok (a : α)
  | fatal (msg : GoString)
  | panic (msg : GoString)
deriving DecidableEq

/-- The calls `main` makes, in the order it makes them. -/
inductive Event where
  | cleanPath (p : GoString)
  | outputFilePath (o p : GoString)
  | readFile (filename : GoString)
  | markdownOptions (input : GoString)
  | printf (s : GoString)
  | writeFile (filename data : GoString) (perm : Nat)
deriving DecidableEq

/-- The event is a call of `ioutil.ReadFile`. -/
def Event.isRead : Event → Bool
  | .readFile _ => true
  | _ => false

/-- The event is a call of `ioutil.WriteFile`. -/
def Event.isWrite : Event → Bool
  | .writeFile _ _ _ => true
  | _ => false

/-- The event is a file operation: a read or a write. -/
def Event.isFileOp (e : Event) : Bool := e.isRead || e.isWrite

/-- How a run of `main` ends. -/
inductive Outcome where
  | returned
  | fatal (msg : GoString)
  | panic (msg : GoString)
deriving DecidableEq

/-! ## The program -/

/-- The constant `htmlFlags`. -/
def htmlFlags (bf : Blackfriday) : Nat :=
  0 |||
    bf.HTML_USE_XHTML |||
    bf.HTML_USE_SMARTYPANTS |||
    bf.HTML_SMARTYPANTS_FRACTIONS |||
    bf.HTML_SMARTYPANTS_LATEX_DASHES

/-- The constant `extensions`. -/
def extensions (bf : Blackfriday) : Nat :=
  0 |||
    bf.EXTENSION_NO_INTRA_EMPHASIS |||
    bf.EXTENSION_TABLES |||
    bf.EXTENSION_FENCED_CODE |||
    bf.EXTENSION_AUTOLINK |||
    bf.EXTENSION_STRIKETHROUGH |||
    bf.EXTENSION_SPACE_HEADERS |||
    bf.EXTENSION_HEADER_IDS |||
    bf.EXTENSION_BACKSLASH_LINE_BREAK |||
    bf.EXTENSION_DEFINITION_LISTS |||
    bf.EXTENSION_HARD_LINE_BREAK

/-- The function `expandTilde`: the new value of `*pathPtr`.  The error of
`user.Current()` is dropped as in the source; on an error `usr` is nil and the
field access `usr.HomeDir` panics. -/
def expandTilde (usr : Option GoString) (p : GoString) : Result GoString :=
  match usr with
  | none => .panic (str "runtime error: invalid memory address or nil pointer dereference")
  | some homeDir => .ok (strings.Replace p (str "~") homeDir 1 (by decide))

/-- The function `cleanPath`, on the value of `*pathPtr`; `usr` is the result
of `user.Current()`.  The index expression `(*pathPtr)[0]` panics when the
string is empty, and `expandTilde` panics on a nil `usr`. -/
def cleanPath (usr : Option GoString) (p : GoString) : Result GoString :=
  -- Make sure the input file is a Markdown file
  if filepath.Ext p ≠ str ".md" then
    .fatal (str "Error: You must provide a markdown (.md) file.")
  else
    match p.head? with
    | none => .panic (str "runtime error: index out of range")
    | some b =>
      -- Tilde expansion for unix
      if stringOfByte b = str "~" then
        match expandTilde usr p with
        | .ok p1 => .ok (filepath.Clean p1)
        | .fatal msg => .fatal msg
        | .panic msg => .panic msg
      else .ok (filepath.Clean p)

/-- The function `readInput`. -/
def readInput (env : Env) (filename : GoString) : Result GoString :=
  match env.ReadFile filename with
  | .error err => .fatal err
  | .ok rawMarkdown => .ok rawMarkdown

/-- The function `outputFilePath`, on the value of `*outputPtr`; `getwd` is the
result of `os.Getwd()`.  The error of `filepath.Abs` is dropped as in the
source: the path result alone is returned, "" when `Abs` fails. -/
def outputFilePath (getwd : Except GoString GoString) (o inputPath : GoString) : GoString :=
  let output :=
    if o = [] then
      let (inputDir, inputFile) := filepath.Split inputPath
      let outputFile := strings.TrimSuffix inputFile (str ".md") ++ str ".html"
      filepath.Join [inputDir, outputFile]
    else o
  (filepath.Abs getwd output).1

/-- The text `fmt.Printf("Converting %s. Output is located at %s\n", a, b)`
prints. -/
def progressMessage (a b : GoString) : GoString :=
  str "Converting " ++ a ++ str ". Output is located at " ++ b ++ str "\n"

/-- The function `main`, on the values of the flags `--input` and `--output`
after `flag.Parse()` (an absent flag has the default value ""): the calls made
and the way the run ends.  The error `ioutil.WriteFile` returns is dropped, as
in the source. -/
def main (env : Env) (input output : GoString) : List Event × Outcome :=
  -- Fatal error if no input has been specified
  if input = [] then
    ([], .fatal (str "Error: You must provide a path to your markdown file"))
  else
    -- Check the input path and sanitize the filepath
    let t1 := [Event.cleanPath input]
    match cleanPath env.Current input with
    | .fatal msg => (t1, .fatal msg)
    | .panic msg => (t1, .panic msg)
    | .ok path =>
      let outputPath := outputFilePath env.Getwd output path
      let t2 := t1 ++ [Event.outputFilePath output path]
      -- Read the markdown file into a []Byte
      let t3 := t2 ++ [Event.readFile path]
      match readInput env path with
      | .fatal msg => (t3, .fatal msg)
      | .panic msg => (t3, .panic msg)
      | .ok rawMarkdown =>
        -- Render the markdown file into HTML and return a new []Byte
        let htmlBody :=
          env.bf.MarkdownOptions rawMarkdown (htmlFlags env.bf) [] [] (extensions env.bf)
        let t4 := t3 ++ [Event.markdownOptions rawMarkdown]
        -- Print in-progress message to stdOut
        let t5 := t4 ++ [Event.printf (progressMessage (filepath.Base path) outputPath)]
        -- Write the htmlBody []Byte out to disk with -rw-r--r-- permissions.
        let _err := env.WriteFile outputPath htmlBody 0o644
        (t5 ++ [Event.writeFile outputPath htmlBody 0o644], .returned)

/-! ## Predicates of the statements -/

/-- A path element that `Clean` copies: not empty, without a separator, and
neither "." nor "..". -/
def RealElem (e : GoString) : Prop :=
  e ≠ [] ∧ (47 : UInt8) ∉ e ∧ e ≠ [46] ∧ e ≠ [46, 46]

/-- A directory part: empty, or ending in a separator. -/
def DirLike (d : GoString) : Prop := d = [] ∨ ∃ d1, d = d1 ++ [47]

/-- The buffer of `Clean` on a rooted path is empty or begins with the separator. -/
def RootedBuf (rooted : Bool) (out : GoString) : Prop :=
  rooted = true → out = [] ∨ out.head? = some 47

/-- The buffer and the value of `dotdot` after the `..` case of the loop of
`Clean`. -/
def afterDotDot (rooted : Bool) (out : GoString) (dd : Nat) : GoString × Nat :=
  if dd < out.length then
    (out.take (filepath.backtrackLoop out dd (out.length - 1)), dd)
  else if rooted = false then
    ((if 0 < out.length then out ++ [47] else out) ++ [46, 46],
      ((if 0 < out.length then out ++ [47] else out) ++ [46, 46]).length)
  else (out, dd)

/-- The buffer of `Clean` before a real element is copied: a slash is added if
needed. -/
def withSlash (rooted : Bool) (out : GoString) : GoString :=
  if (rooted = true ∧ out.length ≠ 1) ∨ (rooted = false ∧ out.length ≠ 0)
  then out ++ [47] else out

/-! ## An example environment -/

/-- Sample values for the library: distinct bits for the flags, and a renderer
that wraps its input in a paragraph. -/
def exampleBf : Blackfriday where
  HTML_USE_XHTML := 1
  HTML_USE_SMARTYPANTS := 2
  HTML_SMARTYPANTS_FRACTIONS := 4
  HTML_SMARTYPANTS_LATEX_DASHES := 8
  EXTENSION_NO_INTRA_EMPHASIS := 1
  EXTENSION_TABLES := 2
  EXTENSION_FENCED_CODE := 4
  EXTENSION_AUTOLINK := 8
  EXTENSION_STRIKETHROUGH := 16
  EXTENSION_SPACE_HEADERS := 32
  EXTENSION_HEADER_IDS := 64
  EXTENSION_BACKSLASH_LINE_BREAK := 128
  EXTENSION_DEFINITION_LISTS := 256
  EXTENSION_HARD_LINE_BREAK := 512
  MarkdownOptions := fun input _ _ _ _ => str "<p>" ++ input ++ str "</p>"

/-- A file system with the single file "/home/u/a.md". -/
def exampleReadFile (filename : GoString) : Except GoString GoString :=
  if filename = str "/home/u/a.md" then .ok (str "hi")
  else .error (str "no such file or directory")

/-- A write that succeeds. -/
def writeOk (_filename _data : GoString) (_perm : Nat) : Option GoString := none

/-- A write that fails. -/
def writeDenied (_filename _data : GoString) (_perm : Nat) : Option GoString :=
  some (str "permission denied")

/-- An environment for the concrete runs: home directory "/home/u", working
directory "/w". -/
def exampleEnv : Env :=
  ⟨some (str "/home/u"), .ok (str "/w"), exampleReadFile, writeOk, exampleBf⟩

/-- The example environment when `user.Current()` returns an error. -/
def noUserEnv : Env :=
  ⟨none, .ok (str "/w"), exampleReadFile, writeOk, exampleBf⟩

/-! ## Lemmas on the library functions -/

theorem str_md : str ".md" = [46, 109, 100] := by decide

theorem str_html : str ".html" = [46, 104, 116, 109, 108] := by decide

theorem str_tilde : str "~" = [126] := by decide

theorem stringOfByte_eq_tilde (b : UInt8) : stringOfByte b = [126] ↔ b = 126 := by
  unfold stringOfByte
  constructor
  · intro h
    split at h
    · simpa using h
    · simp at h
  · intro h
    subst h
    decide

theorem extLoop_nil_or_suffix (rev acc : GoString) :
    filepath.extLoop rev acc = [] ∨ filepath.extLoop rev acc <:+ rev.reverse ++ acc := by
  induction rev generalizing acc with
  | nil => left; rfl
  | cons c rev ih =>
    unfold filepath.extLoop
    by_cases h47 : c = 47
    · simp [h47]
    · by_cases h46 : c = 46
      · right
        simp only [h47, h46, if_false, if_true]
        exact ⟨rev.reverse, by simp⟩
      · simp only [h47, h46, if_false]
        rcases ih (c :: acc) with h | h
        · left; exact h
        · right; simpa using h

theorem Ext_eq_md_iff (p : GoString) : filepath.Ext p = str ".md" ↔ str ".md" <:+ p := by
  rw [str_md]
  constructor
  · intro h
    rcases extLoop_nil_or_suffix p.reverse [] with h0 | hs
    · unfold filepath.Ext at h
      rw [h0] at h
      cases h
    · unfold filepath.Ext at h
      rw [h] at hs
      simpa using hs
  · rintro ⟨q, rfl⟩
    simp [filepath.Ext, filepath.extLoop]

theorem countLoop_ge (sub : GoString) (fuel : Nat) (s : GoString) (n : Nat) :
    n ≤ strings.countLoop sub fuel s n := by
  induction fuel generalizing s n with
  | zero => simp [strings.countLoop]
  | succ fuel ih =>
    unfold strings.countLoop
    split
    · exact Nat.le_refl n
    · exact Nat.le_trans (Nat.le_succ n) (ih _ _)

theorem Index_bound (sub : GoString) (s : GoString) (i : Nat)
    (h : strings.Index s sub = some i) : i + sub.length ≤ s.length := by
  induction s generalizing i with
  | nil =>
    unfold strings.Index at h
    split at h
    · rename_i hs
      cases h
      simp [hs]
    · cases h
  | cons c t ih =>
    unfold strings.Index at h
    split at h
    · rename_i hp
      cases h
      simp only [strings.HasPrefix, Bool.and_eq_true, decide_eq_true_eq] at hp
      simpa using hp.1
    · cases hj : strings.Index t sub with
      | none => rw [hj] at h; cases h
      | some j =>
        rw [hj] at h
        cases h
        have := ih j hj
        simp only [List.length_cons]
        omega

/-- The turns of the loop of `Count` never run out: with more than `len(s)`
turns the result does not depend on their number. -/
theorem countLoop_fuel (sub : GoString) (hsub : sub ≠ []) (n : Nat) :
    ∀ (s : GoString), s.length ≤ n → ∀ (f1 f2 k : Nat), s.length < f1 → s.length < f2 →
      strings.countLoop sub f1 s k = strings.countLoop sub f2 s k := by
  have hlen : 1 ≤ sub.length := by
    cases sub with
    | nil => exact absurd rfl hsub
    | cons c t => simp
  induction n with
  | zero =>
    intro s hs f1 f2 k h1 h2
    have : s = [] := List.eq_nil_of_length_eq_zero (Nat.le_zero.mp hs)
    subst this
    cases f1 with
    | zero => simp at h1
    | succ f1 =>
      cases f2 with
      | zero => simp at h2
      | succ f2 =>
        have hnone : strings.Index [] sub = none := by simp [strings.Index, hsub]
        simp [strings.countLoop, hnone]
  | succ n ih =>
    intro s hs f1 f2 k h1 h2
    cases f1 with
    | zero => simp at h1
    | succ f1 =>
      cases f2 with
      | zero => simp at h2
      | succ f2 =>
        rw [strings.countLoop, strings.countLoop]
        cases hi : strings.Index s sub with
        | none => rfl
        | some i =>
          have hb := Index_bound sub s i hi
          have hd : (s.drop (i + sub.length)).length = s.length - (i + sub.length) := by simp
          exact ih _ (by omega) _ _ _ (by omega) (by omega)

theorem Index_tilde_cons (t : GoString) : strings.Index (126 :: t) [126] = some 0 := by
  simp [strings.Index, strings.HasPrefix]

theorem Replace_leading_tilde (home t : GoString) (h : ([126] : GoString) ≠ []) :
    strings.Replace (126 :: t) [126] home 1 h = home ++ t := by
  unfold strings.Replace
  by_cases hh : [126] = home
  · simp [← hh]
  · have hm : 1 ≤ strings.Count (126 :: t) [126] := by
      unfold strings.Count strings.countLoop
      rw [Index_tilde_cons]
      exact countLoop_ge _ _ _ _
    have hm0 : strings.Count (126 :: t) [126] ≠ 0 := by omega
    have hlt : ¬ ((strings.Count (126 :: t) [126] : Int) < 1) := by omega
    simp [hh, hm0, hlt, strings.replaceLoop, Index_tilde_cons]

theorem expandTilde_leading (home t : GoString) :
    expandTilde (some home) (126 :: t) = .ok (home ++ t) := by
  unfold expandTilde
  exact congrArg Result.ok (Replace_leading_tilde home t _)

theorem copyElem_append (a rest out : GoString) (ha : (47 : UInt8) ∉ a) :
    filepath.copyElem (a ++ rest) out = filepath.copyElem rest (out ++ a) := by
  induction a generalizing out with
  | nil => simp
  | cons c a ih =>
    have hc : c ≠ 47 := fun h => ha (by simp [h])
    have ha1 : (47 : UInt8) ∉ a := fun h => ha (by simp [h])
    rw [List.cons_append, filepath.copyElem]
    simp only [hc, if_false]
    rw [ih _ ha1]
    simp

theorem copyElem_sep (b out : GoString) :
    filepath.copyElem (47 :: b) out = (47 :: b, out) := by
  simp [filepath.copyElem]

theorem cleanLoop_nil (rooted : Bool) (fuel : Nat) (out : GoString) (dd : Nat) :
    filepath.cleanLoop rooted fuel [] out dd = out := by
  cases fuel <;> simp [filepath.cleanLoop]

theorem cleanLoop_sep (rooted : Bool) (f : Nat) (t out : GoString) (dd : Nat) :
    filepath.cleanLoop rooted (f + 1) (47 :: t) out dd = filepath.cleanLoop rooted f t out dd := by
  simp [filepath.cleanLoop]

theorem cleanLoop_dot (rooted : Bool) (f : Nat) (t out : GoString) (dd : Nat) :
    filepath.cleanLoop rooted (f + 1) (46 :: 47 :: t) out dd
      = filepath.cleanLoop rooted f (47 :: t) out dd := by
  have h : ¬ ((46 : UInt8) = 47) := by decide
  simp [filepath.cleanLoop, h]

theorem cleanLoop_dotdot (rooted : Bool) (f : Nat) (t out : GoString) (dd : Nat) :
    filepath.cleanLoop rooted (f + 1) (46 :: 46 :: 47 :: t) out dd
      = filepath.cleanLoop rooted f (47 :: t) (afterDotDot rooted out dd).1
          (afterDotDot rooted out dd).2 := by
  have h : ¬ ((46 : UInt8) = 47) := by decide
  unfold afterDotDot
  simp only [filepath.cleanLoop, h, if_false, List.head?_cons, List.tail_cons, and_true,
    Option.some.injEq, or_true, and_false, false_or, reduceCtorEq, or_false, if_true, true_and]
  split
  · rfl
  · split <;> rfl

theorem cleanLoop_elem (rooted : Bool) (f : Nat) (c : UInt8) (t out : GoString) (dd : Nat)
    (h1 : c ≠ 47) (h2 : ¬ (c = 46 ∧ (t = [] ∨ t.head? = some 47)))
    (h3 : ¬ (c = 46 ∧ t.head? = some 46 ∧ (t.tail = [] ∨ t.tail.head? = some 47))) :
    filepath.cleanLoop rooted (f + 1) (c :: t) out dd
      = filepath.cleanLoop rooted f (filepath.copyElem (c :: t) (withSlash rooted out)).1
          (filepath.copyElem (c :: t) (withSlash rooted out)).2 dd := by
  rw [filepath.cleanLoop]
  simp only [h1, h2, h3, if_false]
  rfl

theorem copyElem_length (s out : GoString) :
    (filepath.copyElem s out).1.length ≤ s.length := by
  induction s generalizing out with
  | nil => simp [filepath.copyElem]
  | cons c t ih =>
    unfold filepath.copyElem
    split
    · exact Nat.le_refl _
    · exact Nat.le_trans (ih _) (Nat.le_succ _)

theorem copyElem_length_lt (c : UInt8) (t out : GoString) (hc : c ≠ 47) :
    (filepath.copyElem (c :: t) out).1.length ≤ t.length := by
  rw [filepath.copyElem]
  simp only [hc, if_false]
  exact copyElem_length _ _

theorem cleanLoop_dot_case (rooted : Bool) (f : Nat) (c : UInt8) (t out : GoString) (dd : Nat)
    (h1 : c ≠ 47) (h2 : c = 46 ∧ (t = [] ∨ t.head? = some 47)) :
    filepath.cleanLoop rooted (f + 1) (c :: t) out dd = filepath.cleanLoop rooted f t out dd := by
  rw [filepath.cleanLoop]
  dsimp only
  rw [if_neg h1, if_pos h2]

theorem cleanLoop_dotdot_case (rooted : Bool) (f : Nat) (c : UInt8) (t out : GoString)
    (dd : Nat) (h1 : c ≠ 47) (h2 : ¬ (c = 46 ∧ (t = [] ∨ t.head? = some 47)))
    (h3 : c = 46 ∧ t.head? = some 46 ∧ (t.tail = [] ∨ t.tail.head? = some 47)) :
    filepath.cleanLoop rooted (f + 1) (c :: t) out dd
      = filepath.cleanLoop rooted f t.tail (afterDotDot rooted out dd).1
          (afterDotDot rooted out dd).2 := by
  rw [filepath.cleanLoop]
  dsimp only
  rw [if_neg h1, if_neg h2, if_pos h3]
  unfold afterDotDot
  split
  · rfl
  · split <;> rfl

/-- The turns of the loop of `Clean` never run out: with at least `len(rest)`
turns the result does not depend on their number. -/
theorem cleanLoop_fuel (rooted : Bool) (n : Nat) :
    ∀ (rest : GoString), rest.length ≤ n → ∀ (f1 f2 : Nat) (out : GoString) (dd : Nat),
      rest.length ≤ f1 → rest.length ≤ f2 →
      filepath.cleanLoop rooted f1 rest out dd = filepath.cleanLoop rooted f2 rest out dd := by
  induction n with
  | zero =>
    intro rest hn f1 f2 out dd _ _
    have : rest = [] := List.eq_nil_of_length_eq_zero (Nat.le_zero.mp hn)
    subst this
    rw [cleanLoop_nil, cleanLoop_nil]
  | succ n ih =>
    intro rest hn f1 f2 out dd h1 h2
    cases rest with
    | nil => rw [cleanLoop_nil, cleanLoop_nil]
    | cons c t =>
      cases f1 with
      | zero => simp at h1
      | succ f1 =>
        cases f2 with
        | zero => simp at h2
        | succ f2 =>
          simp only [List.length_cons, Nat.add_le_add_iff_right] at hn h1 h2
          have htail : t.tail.length ≤ t.length := by simp
          by_cases hc : c = 47
          · subst hc
            rw [cleanLoop_sep, cleanLoop_sep]
            exact ih t hn _ _ _ _ h1 h2
          · by_cases hd : c = 46 ∧ (t = [] ∨ t.head? = some 47)
            · rw [cleanLoop_dot_case _ _ _ _ _ _ hc hd, cleanLoop_dot_case _ _ _ _ _ _ hc hd]
              exact ih t hn _ _ _ _ h1 h2
            · by_cases hdd : c = 46 ∧ t.head? = some 46
                  ∧ (t.tail = [] ∨ t.tail.head? = some 47)
              · rw [cleanLoop_dotdot_case _ _ _ _ _ _ hc hd hdd,
                  cleanLoop_dotdot_case _ _ _ _ _ _ hc hd hdd]
                exact ih _ (by omega) _ _ _ _ (by omega) (by omega)
              · rw [cleanLoop_elem _ _ _ _ _ _ hc hd hdd, cleanLoop_elem _ _ _ _ _ _ hc hd hdd]
                have hlen := copyElem_length_lt c t (withSlash rooted out) hc
                exact ih _ (by omega) _ _ _ _ (by omega) (by omega)

theorem dirLike_tail {c : UInt8} {l : GoString} (h : DirLike (c :: l)) : DirLike l := by
  rcases h with h | ⟨d1, h⟩
  · cases h
  · cases d1 with
    | nil =>
      simp at h
      exact Or.inl h.2
    | cons x d1 =>
      simp at h
      exact Or.inr ⟨d1, h.2⟩

theorem dirLike_of_append {a b : GoString} (h : DirLike (a ++ b)) : DirLike b := by
  induction a with
  | nil => simpa using h
  | cons c a ih => exact ih (dirLike_tail h)

theorem dirLike_mem {l : GoString} (h : DirLike l) (hne : l ≠ []) : (47 : UInt8) ∈ l := by
  rcases h with h | ⟨d1, h⟩
  · exact absurd h hne
  · simp [h]

theorem dirLike_append_sep (l : GoString) : DirLike (l ++ [47]) := Or.inr ⟨l, rfl⟩

theorem dirLike_append {a b : GoString} (hb : DirLike b) (hne : b ≠ []) : DirLike (a ++ b) := by
  rcases hb with h | ⟨d1, h⟩
  · exact absurd h hne
  · exact Or.inr ⟨a ++ d1, by simp [h]⟩

/-- The shapes of a non-empty directory part, by its first element. -/
theorem dir_cases {pre : GoString} (hd : DirLike pre) (hne : pre ≠ []) :
    (∃ pre1, pre = 47 :: pre1) ∨ (∃ pre1, pre = 46 :: 47 :: pre1)
      ∨ (∃ pre1, pre = 46 :: 46 :: 47 :: pre1)
      ∨ ∃ a b, pre = a ++ 47 :: b ∧ RealElem a := by
  obtain ⟨a, b, hab, ha⟩ := List.eq_append_cons_of_mem (dirLike_mem hd hne)
  by_cases h0 : a = []
  · left; exact ⟨b, by simp [hab, h0]⟩
  · by_cases h1 : a = [46]
    · right; left; exact ⟨b, by simp [hab, h1]⟩
    · by_cases h2 : a = [46, 46]
      · right; right; left; exact ⟨b, by simp [hab, h2]⟩
      · right; right; right; exact ⟨a, b, hab, h0, ha, h1, h2⟩

/-- One turn of the loop of `Clean` on a real element: the element is copied
after the buffer, behind a slash if one is needed. -/
theorem cleanLoop_real_elem (rooted : Bool) (f : Nat) (a rest out : GoString) (dd : Nat)
    (ha : RealElem a) (hrest : rest = [] ∨ ∃ b, rest = 47 :: b) :
    filepath.cleanLoop rooted (f + 1) (a ++ rest) out dd
      = filepath.cleanLoop rooted f rest (withSlash rooted out ++ a) dd := by
  obtain ⟨hne, hsep, hdot, hdotdot⟩ := ha
  have hcopy : filepath.copyElem (a ++ rest) (withSlash rooted out)
      = (rest, withSlash rooted out ++ a) := by
    rw [copyElem_append _ _ _ hsep]
    rcases hrest with h | ⟨b, h⟩
    · subst h; rfl
    · subst h; exact copyElem_sep _ _
  cases a with
  | nil => exact absurd rfl hne
  | cons c t =>
    have hc : c ≠ 47 := fun h => hsep (by simp [h])
    have ht : (47 : UInt8) ∉ t := fun h => hsep (by simp [h])
    have h2 : ¬ (c = 46 ∧ (t ++ rest = [] ∨ (t ++ rest).head? = some 47)) := by
      rintro ⟨h46, h⟩
      cases t with
      | nil => exact hdot (by simp [h46])
      | cons x t => simp at h; exact ht (by simp [h])
    have h3 : ¬ (c = 46 ∧ (t ++ rest).head? = some 46
        ∧ ((t ++ rest).tail = [] ∨ (t ++ rest).tail.head? = some 47)) := by
      rintro ⟨h46, hh, h⟩
      cases t with
      | nil => exact hdot (by simp [h46])
      | cons x t =>
        simp at hh
        cases t with
        | nil => exact hdotdot (by simp [h46, hh])
        | cons y t => simp at h; exact ht (by simp [h])
    rw [List.cons_append, cleanLoop_elem rooted f c (t ++ rest) out dd hc h2 h3,
      ← List.cons_append, hcopy]

theorem withSlash_dirLike (rooted : Bool) (out : GoString) (h : RootedBuf rooted out) :
    DirLike (withSlash rooted out) := by
  unfold withSlash
  split
  · exact dirLike_append_sep out
  · rename_i hc
    cases rooted with
    | true =>
      simp at hc
      rcases h rfl with h0 | h1
      · simp [h0] at hc
      · cases out with
        | nil => simp at hc
        | cons x o =>
          simp at h1 hc
          subst h1
          subst hc
          exact Or.inr ⟨[], rfl⟩
    | false =>
      simp at hc
      exact Or.inl hc

theorem withSlash_rootedBuf (rooted : Bool) (out a : GoString) (h : RootedBuf rooted out) :
    RootedBuf rooted (withSlash rooted out ++ a) := by
  intro hr
  right
  unfold withSlash
  rcases h hr with h0 | h1
  · subst h0; subst hr; simp
  · cases out with
    | nil => simp at h1
    | cons x o =>
      simp at h1
      subst h1
      split <;> simp

theorem afterDotDot_rootedBuf (rooted : Bool) (out : GoString) (dd : Nat)
    (h : RootedBuf rooted out) : RootedBuf rooted (afterDotDot rooted out dd).1 := by
  intro hr
  unfold afterDotDot
  split
  · rcases h hr with h0 | h1
    · left; simp [h0]
    · cases out with
      | nil => simp at h1
      | cons x o =>
        cases filepath.backtrackLoop (x :: o) dd ((x :: o).length - 1) with
        | zero => left; simp
        | succ w => right; simpa using h1
  · simp [hr]
    exact h hr

/-- The loop of `Clean` treats the directory part of its input without looking
at a real final element: that element is appended to a buffer that the
directory part alone determines. -/
theorem cleanLoop_param (rooted : Bool) (n : Nat) :
    ∀ (pre : GoString), pre.length ≤ n → DirLike pre →
    ∀ (out : GoString) (dd : Nat), RootedBuf rooted out →
    ∃ X, DirLike X ∧ ∀ e, RealElem e → ∀ fuel, (pre ++ e).length ≤ fuel →
      filepath.cleanLoop rooted fuel (pre ++ e) out dd = X ++ e := by
  induction n with
  | zero =>
    intro pre hlen _ out dd hinv
    have hpre : pre = [] := List.eq_nil_of_length_eq_zero (Nat.le_zero.mp hlen)
    subst hpre
    refine ⟨withSlash rooted out, withSlash_dirLike rooted out hinv, fun e he fuel hf => ?_⟩
    cases fuel with
    | zero =>
      have := he.1
      simp at hf
      exact absurd hf this
    | succ f =>
      have := cleanLoop_real_elem rooted f e [] out dd he (Or.inl rfl)
      simp only [List.append_nil] at this
      rw [List.nil_append, this, cleanLoop_nil]
  | succ n ih =>
    intro pre hlen hdir out dd hinv
    by_cases hpre : pre = []
    · subst hpre
      exact ih [] (Nat.zero_le _) hdir out dd hinv
    · rcases dir_cases hdir hpre with ⟨p1, h⟩ | ⟨p1, h⟩ | ⟨p1, h⟩ | ⟨a, b, h, ha⟩
      · subst h
        obtain ⟨X, hX, hXe⟩ := ih p1 (by simpa using hlen) (dirLike_tail hdir) out dd hinv
        refine ⟨X, hX, fun e he fuel hf => ?_⟩
        cases fuel with
        | zero => simp at hf
        | succ f =>
          rw [List.cons_append, cleanLoop_sep]
          exact hXe e he f (by simpa using hf)
      · subst h
        obtain ⟨X, hX, hXe⟩ := ih (47 :: p1) (by simpa using hlen) (dirLike_tail hdir) out dd hinv
        refine ⟨X, hX, fun e he fuel hf => ?_⟩
        cases fuel with
        | zero => simp at hf
        | succ f =>
          have := hXe e he f (by simpa using hf)
          simpa [cleanLoop_dot] using this
      · subst h
        obtain ⟨X, hX, hXe⟩ := ih (47 :: p1) (by simp at hlen ⊢; omega) (dirLike_tail (dirLike_tail hdir))
          (afterDotDot rooted out dd).1 (afterDotDot rooted out dd).2
          (afterDotDot_rootedBuf rooted out dd hinv)
        refine ⟨X, hX, fun e he fuel hf => ?_⟩
        cases fuel with
        | zero => simp at hf
        | succ f =>
          have := hXe e he f (by simp at hf ⊢; omega)
          simpa [cleanLoop_dotdot] using this
      · subst h
        have hane : 1 ≤ a.length := by
          have := ha.1
          cases a with
          | nil => exact absurd rfl this
          | cons c t => simp
        obtain ⟨X, hX, hXe⟩ := ih (47 :: b) (by simp at hlen ⊢; omega) (dirLike_of_append hdir)
          (withSlash rooted out ++ a) dd (withSlash_rootedBuf rooted out a hinv)
        refine ⟨X, hX, fun e he fuel hf => ?_⟩
        cases fuel with
        | zero => simp at hf
        | succ f =>
          have h1 := cleanLoop_real_elem rooted f a (47 :: (b ++ e)) out dd ha
            (Or.inr ⟨_, rfl⟩)
          have h2 := hXe e he f (by simp at hf ⊢; omega)
          rw [List.append_assoc, List.cons_append, h1]
          simpa using h2

theorem realElem_head_ne_sep {c : UInt8} {t : GoString} (h : RealElem (c :: t)) : c ≠ 47 :=
  fun hc => h.2.1 (by simp [hc])

/-- `Clean` keeps a real final element and treats what precedes it without
looking at it. -/
theorem Clean_param (d : GoString) (hd : DirLike d) :
    ∃ X, DirLike X ∧ ∀ e, RealElem e → filepath.Clean (d ++ e) = X ++ e := by
  cases d with
  | nil =>
    obtain ⟨X, hX, hXe⟩ := cleanLoop_param false 0 [] (Nat.le_refl _) hd [] 0 (by simp [RootedBuf])
    refine ⟨X, hX, fun e he => ?_⟩
    cases e with
    | nil => exact absurd rfl he.1
    | cons c t =>
      have hc := (realElem_head_ne_sep he)
      have h := hXe (c :: t) he (c :: t).length (by simp)
      simp only [List.nil_append] at h
      simp only [List.nil_append, filepath.Clean, hc, decide_False, Bool.false_eq_true,
        if_false, h]
      simp
  | cons c d =>
    by_cases hc : c = 47
    · subst hc
      obtain ⟨X, hX, hXe⟩ := cleanLoop_param true d.length d (Nat.le_refl _) (dirLike_tail hd) [47] 1
        (by simp [RootedBuf])
      refine ⟨X, hX, fun e he => ?_⟩
      have h := hXe e he ((47 : UInt8) :: (d ++ e)).length (by simp)
      have hne : ¬ (X ++ e).length = 0 := by
        have := he.1
        simp [this]
      simp only [List.cons_append, filepath.Clean, decide_True, if_true, h, hne, if_false]
    · obtain ⟨X, hX, hXe⟩ := cleanLoop_param false (c :: d).length (c :: d) (Nat.le_refl _) hd
        [] 0 (by simp [RootedBuf])
      refine ⟨X, hX, fun e he => ?_⟩
      have h := hXe e he (c :: (d ++ e)).length (by simp)
      have hne : ¬ (X ++ e).length = 0 := by
        have := he.1
        simp [this]
      simp only [List.cons_append] at h
      simp only [List.cons_append, filepath.Clean, hc, decide_False, Bool.false_eq_true,
        if_false, h, hne]

/-- `Join` of a directory and a real file name ends in the file name, after a
directory part that does not depend on it. -/
theorem Join_param (dir : GoString) :
    ∃ X, DirLike X ∧ ∀ f, RealElem f → filepath.Join [dir, f] = X ++ f := by
  by_cases hdir : dir = []
  · subst hdir
    obtain ⟨X, hX, hXe⟩ := Clean_param [] (Or.inl rfl)
    refine ⟨X, hX, fun f hf => ?_⟩
    have := hXe f hf
    simp only [List.nil_append] at this
    simp [filepath.Join, strings.Join, hf.1, this]
  · obtain ⟨X, hX, hXe⟩ := Clean_param (dir ++ [47]) (dirLike_append_sep dir)
    refine ⟨X, hX, fun f hf => ?_⟩
    have := hXe f hf
    simp only [List.append_assoc, List.singleton_append] at this
    simp [filepath.Join, strings.Join, hdir, this]

theorem IsAbs_append (X f : GoString) (hX : DirLike X) (hf : RealElem f) :
    filepath.IsAbs (X ++ f) = filepath.IsAbs (X ++ [0]) := by
  cases X with
  | nil =>
    cases f with
    | nil => exact absurd rfl hf.1
    | cons c t =>
      have hc := (realElem_head_ne_sep hf)
      simp [filepath.IsAbs, strings.HasPrefix, hc]
  | cons x X => simp [filepath.IsAbs, strings.HasPrefix]

/-- With a working directory, `Abs` of a directory part followed by a real file
name succeeds and ends in the file name, after a directory part that does not
depend on it. -/
theorem Abs_param (wd X : GoString) (hX : DirLike X) :
    ∃ Y, DirLike Y ∧ ∀ f, RealElem f → filepath.Abs (.ok wd) (X ++ f) = (Y ++ f, none) := by
  by_cases habs : filepath.IsAbs (X ++ [0]) = true
  · obtain ⟨Y, hY, hYe⟩ := Clean_param X hX
    refine ⟨Y, hY, fun f hf => ?_⟩
    simp [filepath.Abs, IsAbs_append X f hX hf, habs, hYe f hf]
  · by_cases hwd : wd = []
    · subst hwd
      obtain ⟨Y, hY, hYe⟩ := Clean_param X hX
      refine ⟨Y, hY, fun f hf => ?_⟩
      have hne : f ≠ [] := hf.1
      simp [filepath.Abs, IsAbs_append X f hX hf, habs, filepath.Join, strings.Join, hne,
        hYe f hf]
    · have hdl : DirLike (wd ++ [47] ++ X) := by
        rcases hX with h | ⟨d1, h⟩
        · subst h; simpa using dirLike_append_sep wd
        · subst h
          have := dirLike_append_sep (wd ++ [47] ++ d1)
          simpa using this
      obtain ⟨Y, hY, hYe⟩ := Clean_param (wd ++ [47] ++ X) hdl
      refine ⟨Y, hY, fun f hf => ?_⟩
      have := hYe f hf
      simp only [List.append_assoc, List.singleton_append, List.cons_append,
        List.nil_append] at this
      simp [filepath.Abs, IsAbs_append X f hX hf, habs, filepath.Join, strings.Join, hwd, this]

/-- Without a working directory, `Abs` of a relative path fails: the path
result is "". -/
theorem Abs_getwd_error (err path : GoString) (hrel : filepath.IsAbs path = false) :
    filepath.Abs (.error err) path = ([], some err) := by
  simp [filepath.Abs, hrel]

theorem splitLoop_append (a rev file : GoString) (ha : (47 : UInt8) ∉ a) :
    filepath.splitLoop (a ++ rev) file = filepath.splitLoop rev (a.reverse ++ file) := by
  induction a generalizing file with
  | nil => simp
  | cons c a ih =>
    have hc : c ≠ 47 := fun h => ha (by simp [h])
    have ha1 : (47 : UInt8) ∉ a := fun h => ha (by simp [h])
    rw [List.cons_append, filepath.splitLoop]
    simp only [hc, if_false]
    rw [ih _ ha1]
    simp

/-- `Split` cuts in front of a final part that has no separator. -/
theorem Split_append (X e : GoString) (hX : DirLike X) (he : (47 : UInt8) ∉ e) :
    filepath.Split (X ++ e) = (X, e) := by
  unfold filepath.Split
  rw [List.reverse_append, splitLoop_append _ _ _ (by simpa using he)]
  rcases hX with h | ⟨d1, h⟩
  · subst h; simp [filepath.splitLoop]
  · subst h; simp [filepath.splitLoop]

/-- What `Split` returns: a directory part and a file part without separator
that make up the path. -/
theorem Split_spec (p : GoString) :
    DirLike (filepath.Split p).1 ∧ (47 : UInt8) ∉ (filepath.Split p).2
      ∧ (filepath.Split p).1 ++ (filepath.Split p).2 = p := by
  have key : ∀ (rev file : GoString), (47 : UInt8) ∉ file →
      DirLike (filepath.splitLoop rev file).1 ∧ (47 : UInt8) ∉ (filepath.splitLoop rev file).2
        ∧ (filepath.splitLoop rev file).1 ++ (filepath.splitLoop rev file).2
          = rev.reverse ++ file := by
    intro rev
    induction rev with
    | nil => intro file hf; exact ⟨Or.inl rfl, hf, rfl⟩
    | cons c rev ih =>
      intro file hf
      unfold filepath.splitLoop
      by_cases hc : c = 47
      · subst hc
        refine ⟨Or.inr ⟨rev.reverse, by simp⟩, by simpa using hf, by simp⟩
      · simp only [hc, if_false]
        have := ih (c :: file) (by simp [hf, Ne.symm hc])
        simpa using this
  have := key p.reverse [] (by simp)
  simpa [filepath.Split] using this

/-! ## Lemmas on the program's functions -/

theorem realElem_of_length {e : GoString} (hsep : (47 : UInt8) ∉ e) (hlen : 3 ≤ e.length) :
    RealElem e := by
  refine ⟨?_, hsep, ?_, ?_⟩ <;> (intro h; subst h; simp at hlen)

theorem splitLoop_snd_suffix (rev file : GoString) :
    file <:+ (filepath.splitLoop rev file).2 := by
  induction rev generalizing file with
  | nil => exact List.suffix_refl _
  | cons c rev ih =>
    unfold filepath.splitLoop
    split
    · exact List.suffix_refl _
    · exact List.IsSuffix.trans (List.suffix_cons c file) (ih (c :: file))

/-- The file part of a path ending in ".md" ends in ".md". -/
theorem Split_md (p : GoString) (hp : str ".md" <:+ p) :
    ∃ stem, (filepath.Split p).2 = stem ++ str ".md" ∧ (47 : UInt8) ∉ stem := by
  have hsep := (Split_spec p).2.1
  obtain ⟨q, rfl⟩ := hp
  have h : str ".md" <:+ (filepath.Split (q ++ str ".md")).2 := by
    have := splitLoop_snd_suffix q.reverse (str ".md")
    simpa [filepath.Split, str_md, filepath.splitLoop] using this
  obtain ⟨stem, hstem⟩ := h
  refine ⟨stem, hstem.symm, ?_⟩
  rw [← hstem] at hsep
  exact fun hm => hsep (List.mem_append_left _ hm)

theorem TrimSuffix_append (a s : GoString) : strings.TrimSuffix (a ++ s) s = a := by
  simp [strings.TrimSuffix, strings.HasSuffix]

theorem realElem_md {stem : GoString} (h : (47 : UInt8) ∉ stem) : RealElem (stem ++ str ".md") := by
  apply realElem_of_length
  · rw [str_md]; simp [h]
  · rw [str_md]; simp

theorem realElem_html {stem : GoString} (h : (47 : UInt8) ∉ stem) :
    RealElem (stem ++ str ".html") := by
  apply realElem_of_length
  · rw [str_html]; simp [h]
  · rw [str_html]; simp

theorem outputFilePath_empty (getwd : Except GoString GoString) (p : GoString) :
    outputFilePath getwd [] p
      = (filepath.Abs getwd (filepath.Join [(filepath.Split p).1,
          strings.TrimSuffix (filepath.Split p).2 (str ".md") ++ str ".html"])).1 := by
  simp [outputFilePath]

/-- The shape of the default output path when there is a working directory. -/
theorem outputFilePath_shape (wd p : GoString) (hp : str ".md" <:+ p) :
    ∃ dir stem, DirLike dir ∧ (47 : UInt8) ∉ stem
      ∧ (filepath.Split p).2 = stem ++ str ".md"
      ∧ outputFilePath (.ok wd) [] p = dir ++ (stem ++ str ".html")
      ∧ filepath.Abs (.ok wd) (filepath.Join [(filepath.Split p).1, (filepath.Split p).2])
          = (dir ++ (stem ++ str ".md"), none) := by
  obtain ⟨stem, hstem, hsep⟩ := Split_md p hp
  obtain ⟨X, hX, hXe⟩ := Join_param (filepath.Split p).1
  obtain ⟨Y, hY, hYe⟩ := Abs_param wd X hX
  refine ⟨Y, stem, hY, hsep, hstem, ?_, ?_⟩
  · rw [outputFilePath_empty, hstem, TrimSuffix_append, hXe _ (realElem_html hsep),
      hYe _ (realElem_html hsep)]
  · rw [hstem, hXe _ (realElem_md hsep), hYe _ (realElem_md hsep)]

theorem Ext_nil : filepath.Ext [] = [] := rfl

/-- What `cleanPath` does on an accepted path. -/
theorem cleanPath_of_md (usr : Option GoString) (p : GoString)
    (hp : filepath.Ext p = str ".md") :
    cleanPath usr p
      = if str "~" <+: p then
          match usr with
          | none =>
            .panic (str "runtime error: invalid memory address or nil pointer dereference")
          | some home => .ok (filepath.Clean (home ++ p.drop 1))
        else .ok (filepath.Clean p) := by
  cases p with
  | nil => rw [Ext_nil] at hp; exact absurd hp (by decide)
  | cons b t =>
    unfold cleanPath
    simp only [hp, ne_eq, not_true_eq_false, if_false, List.head?_cons, str_tilde,
      stringOfByte_eq_tilde]
    by_cases hb : b = 126
    · subst hb
      cases usr with
      | none => simp [expandTilde]
      | some home => simp [expandTilde_leading]
    · have : ¬ ([126] <+: b :: t) := by
        rintro ⟨s, hs⟩
        simp at hs
        exact hb hs.1.symm
      simp [hb, this]

/-- What `cleanPath` returns on an accepted path when the user is known. -/
theorem cleanPath_ok (home p : GoString) (hp : filepath.Ext p = str ".md") :
    cleanPath (some home) p
      = .ok (filepath.Clean (if str "~" <+: p then home ++ p.drop 1 else p)) := by
  rw [cleanPath_of_md _ p hp]
  split <;> rfl

/-- What `cleanPath` returns on an accepted path without a leading "~". -/
theorem cleanPath_no_tilde (usr : Option GoString) (p : GoString)
    (hp : filepath.Ext p = str ".md") (ht : ¬ str "~" <+: p) :
    cleanPath usr p = .ok (filepath.Clean p) := by
  rw [cleanPath_of_md _ p hp, if_neg ht]

/-- On an accepted path with a leading "~", `cleanPath` panics when
`user.Current()` has returned an error. -/
theorem cleanPath_nil_user (p : GoString) (hp : filepath.Ext p = str ".md")
    (ht : str "~" <+: p) :
    cleanPath none p
      = .panic (str "runtime error: invalid memory address or nil pointer dereference") := by
  rw [cleanPath_of_md _ p hp, if_pos ht]

theorem cleanPath_fatal (usr : Option GoString) (p : GoString)
    (hp : filepath.Ext p ≠ str ".md") :
    cleanPath usr p = .fatal (str "Error: You must provide a markdown (.md) file.") := by
  unfold cleanPath
  simp [hp]

/-- The three ways `cleanPath` ends. -/
theorem cleanPath_cases (usr : Option GoString) (p : GoString) :
    (filepath.Ext p ≠ str ".md"
        ∧ cleanPath usr p = .fatal (str "Error: You must provide a markdown (.md) file."))
      ∨ (filepath.Ext p = str ".md" ∧ str "~" <+: p ∧ usr = none
        ∧ cleanPath usr p
          = .panic (str "runtime error: invalid memory address or nil pointer dereference"))
      ∨ (filepath.Ext p = str ".md" ∧ (¬ str "~" <+: p ∨ ∃ home, usr = some home)
        ∧ ∃ cleaned, cleanPath usr p = .ok cleaned) := by
  by_cases hp : filepath.Ext p = str ".md"
  · by_cases ht : str "~" <+: p
    · cases usr with
      | none => exact Or.inr (Or.inl ⟨hp, ht, rfl, cleanPath_nil_user p hp ht⟩)
      | some home => exact Or.inr (Or.inr ⟨hp, Or.inr ⟨home, rfl⟩, _, cleanPath_ok home p hp⟩)
    · exact Or.inr (Or.inr ⟨hp, Or.inl ht, _, cleanPath_no_tilde usr p hp ht⟩)
  · exact Or.inl ⟨hp, cleanPath_fatal usr p hp⟩

theorem Ext_of_cleanPath_ok {usr : Option GoString} {p path : GoString}
    (h : cleanPath usr p = .ok path) : filepath.Ext p = str ".md" := by
  by_contra hp
  rw [cleanPath_fatal usr p hp] at h
  cases h

/-- A cleaned path ends in a real element that ends in ".md". -/
theorem cleanPath_shape (usr : Option GoString) (p cleaned : GoString)
    (hc : cleanPath usr p = .ok cleaned) :
    ∃ dir stem, DirLike dir ∧ (47 : UInt8) ∉ stem ∧ cleaned = dir ++ (stem ++ str ".md") := by
  have hp := Ext_of_cleanPath_ok hc
  have h0 := (Ext_eq_md_iff p).mp hp
  have key : ∀ p1 : GoString, str ".md" <:+ p1 →
      ∃ dir stem, DirLike dir ∧ (47 : UInt8) ∉ stem
        ∧ filepath.Clean p1 = dir ++ (stem ++ str ".md") := by
    intro p1 hmd
    obtain ⟨stem, hstem, hsep⟩ := Split_md p1 hmd
    obtain ⟨hdir, -, hsplit⟩ := Split_spec p1
    obtain ⟨X, hX, hXe⟩ := Clean_param (filepath.Split p1).1 hdir
    refine ⟨X, stem, hX, hsep, ?_⟩
    rw [← hXe _ (realElem_md hsep), ← hstem, hsplit]
  rw [cleanPath_of_md usr p hp] at hc
  by_cases ht : str "~" <+: p
  · rw [if_pos ht] at hc
    cases usr with
    | none => cases hc
    | some home =>
      simp only [Result.ok.injEq] at hc
      subst hc
      apply key
      obtain ⟨t, rfl⟩ := ht
      have h1 : str ".md" <:+ t := by
        obtain ⟨q, hq⟩ := h0
        cases q with
        | nil => rw [str_tilde, str_md] at hq; simp at hq
        | cons x q =>
          rw [str_tilde] at hq
          simp at hq
          exact ⟨q, hq.2⟩
      rw [str_tilde]
      simpa using List.IsSuffix.trans h1 (List.suffix_append home t)
  · rw [if_neg ht] at hc
    simp only [Result.ok.injEq] at hc
    subst hc
    exact key p h0

theorem html_ne_md {a b : GoString} (ha : str ".html" <:+ a) (hb : str ".md" <:+ b) : a ≠ b := by
  obtain ⟨u, rfl⟩ := ha
  obtain ⟨v, rfl⟩ := hb
  intro h
  have := congrArg List.getLast? h
  rw [str_html, str_md] at this
  simp at this

theorem ne_nil_of_Ext {p : GoString} (hp : filepath.Ext p = str ".md") : p ≠ [] := by
  intro h
  subst h
  rw [Ext_nil] at hp
  exact absurd hp (by decide)

theorem ne_nil_of_cleanPath_ok {usr : Option GoString} {p path : GoString}
    (h : cleanPath usr p = .ok path) : p ≠ [] :=
  ne_nil_of_Ext (Ext_of_cleanPath_ok h)

/-- The run of `main` without an input path. -/
theorem main_empty (env : Env) (output : GoString) :
    main env [] output
      = ([], .fatal (str "Error: You must provide a path to your markdown file")) := by
  simp [main]

/-- The run of `main` on an input path that does not end in ".md". -/
theorem main_not_md (env : Env) (input output : GoString) (hne : input ≠ [])
    (hp : filepath.Ext input ≠ str ".md") :
    main env input output
      = ([.cleanPath input],
          .fatal (str "Error: You must provide a markdown (.md) file.")) := by
  simp [main, hne, cleanPath_fatal env.Current input hp]

/-- The run of `main` when `cleanPath` panics. -/
theorem main_panic (env : Env) (input output msg : GoString) (hne : input ≠ [])
    (hpanic : cleanPath env.Current input = .panic msg) :
    main env input output = ([.cleanPath input], .panic msg) := by
  simp [main, hne, hpanic]

/-- The run of `main` when the input file cannot be read. -/
theorem main_read_error (env : Env) (input output path err : GoString)
    (hpath : cleanPath env.Current input = .ok path)
    (hread : env.ReadFile path = .error err) :
    main env input output
      = ([.cleanPath input, .outputFilePath output path, .readFile path], .fatal err) := by
  have hne : input ≠ [] := ne_nil_of_cleanPath_ok hpath
  simp [main, hne, hpath, readInput, hread]

/-- The run of `main` when the input file is read. -/
theorem main_read_ok (env : Env) (input output path raw : GoString)
    (hpath : cleanPath env.Current input = .ok path) (hread : env.ReadFile path = .ok raw) :
    main env input output
      = ([.cleanPath input, .outputFilePath output path, .readFile path,
          .markdownOptions raw,
          .printf (progressMessage (filepath.Base path)
            (outputFilePath env.Getwd output path)),
          .writeFile (outputFilePath env.Getwd output path)
            (env.bf.MarkdownOptions raw (htmlFlags env.bf) [] [] (extensions env.bf)) 0o644],
          .returned) := by
  have hne : input ≠ [] := ne_nil_of_cleanPath_ok hpath
  simp [main, hne, hpath, readInput, hread]

/-- The five ways a run of `main` goes. -/
theorem main_cases (env : Env) (input output : GoString) :
    (input = [] ∧ main env input output
        = ([], .fatal (str "Error: You must provide a path to your markdown file")))
    ∨ (input ≠ [] ∧ filepath.Ext input ≠ str ".md" ∧ main env input output
        = ([.cleanPath input], .fatal (str "Error: You must provide a markdown (.md) file.")))
    ∨ (input ≠ [] ∧ filepath.Ext input = str ".md"
        ∧ ∃ msg, cleanPath env.Current input = .panic msg
          ∧ main env input output = ([.cleanPath input], .panic msg))
    ∨ (∃ path err, cleanPath env.Current input = .ok path ∧ env.ReadFile path = .error err
        ∧ main env input output
          = ([.cleanPath input, .outputFilePath output path, .readFile path], .fatal err))
    ∨ (∃ path raw, cleanPath env.Current input = .ok path ∧ env.ReadFile path = .ok raw
        ∧ main env input output
          = ([.cleanPath input, .outputFilePath output path, .readFile path,
              .markdownOptions raw,
              .printf (progressMessage (filepath.Base path)
                (outputFilePath env.Getwd output path)),
              .writeFile (outputFilePath env.Getwd output path)
                (env.bf.MarkdownOptions raw (htmlFlags env.bf) [] [] (extensions env.bf))
                0o644],
              .returned)) := by
  by_cases hne : input = []
  · subst hne
    exact Or.inl ⟨rfl, main_empty env output⟩
  · rcases cleanPath_cases env.Current input with ⟨hp, _⟩ | ⟨hp, _, _, hpanic⟩
        | ⟨hp, _, path, hpath⟩
    · exact Or.inr (Or.inl ⟨hne, hp, main_not_md env input output hne hp⟩)
    · exact Or.inr (Or.inr (Or.inl
        ⟨hne, hp, _, hpanic, main_panic env input output _ hne hpanic⟩))
    · right; right; right
      cases hread : env.ReadFile path with
      | error err =>
        exact Or.inl ⟨_, err, hpath, hread, main_read_error env input output _ err hpath hread⟩
      | ok raw =>
        exact Or.inr ⟨_, raw, hpath, hread, main_read_ok env input output _ raw hpath hread⟩

/-- With a working directory and an empty `--output`, for an accepted input
path the result of `outputFilePath` is a directory part followed by the file
name `stem ++ ".html"`, where `stem ++ ".md"` is the file name of the input path
and the same directory part followed by it is the absolute form of the input
path as joined from its two parts. -/
theorem outputFilePath_default_with_wd (wd p : GoString) (hp : filepath.Ext p = str ".md") :
    ∃ dir stem,
      (filepath.Split p).2 = stem ++ str ".md"
        ∧ strings.TrimSuffix (filepath.Split p).2 (str ".md") = stem
        ∧ outputFilePath (.ok wd) [] p = dir ++ (stem ++ str ".html")
        ∧ filepath.Split (outputFilePath (.ok wd) [] p) = (dir, stem ++ str ".html")
        ∧ filepath.Abs (.ok wd) (filepath.Join [(filepath.Split p).1, (filepath.Split p).2])
            = (dir ++ (stem ++ str ".md"), none) := by
  obtain ⟨dir, stem, hdir, hsep, hfile, hout, hin⟩ :=
    outputFilePath_shape wd p ((Ext_eq_md_iff p).mp hp)
  refine ⟨dir, stem, hfile, ?_, hout, ?_, hin⟩
  · rw [hfile, TrimSuffix_append]
  · rw [hout]
    exact Split_append dir _ hdir (realElem_html hsep).2.1

/-- The index expression of `cleanPath` is never out of range: the extension
test ends `cleanPath` or the string has at least three bytes.  The only panic of
`cleanPath` is the nil `usr` of `expandTilde`: without a leading "~", or with a
known user, `cleanPath` returns a path on every accepted input. -/
theorem cleanPath_index_safe (usr : Option GoString) (p : GoString) :
    (filepath.Ext p ≠ str ".md" ∨ 3 ≤ p.length)
      ∧ cleanPath usr p ≠ .panic (str "runtime error: index out of range")
      ∧ (filepath.Ext p = str ".md" → p.head?.isSome = true)
      ∧ (filepath.Ext p = str ".md" → (¬ str "~" <+: p ∨ ∃ home, usr = some home) →
          ∃ cleaned, cleanPath usr p = .ok cleaned) := by
  refine ⟨?_, ?_, ?_, ?_⟩
  · by_cases hp : filepath.Ext p = str ".md"
    · right
      obtain ⟨q, rfl⟩ := (Ext_eq_md_iff p).mp hp
      rw [str_md]
      simp
    · exact Or.inl hp
  · rcases cleanPath_cases usr p with ⟨_, h⟩ | ⟨_, _, _, h⟩ | ⟨_, _, c, h⟩ <;> rw [h]
    · simp
    · decide
    · simp
  · intro hp
    have := ne_nil_of_Ext hp
    cases p with
    | nil => exact absurd rfl this
    | cons b t => rfl
  · intro hp hu
    rcases cleanPath_cases usr p with ⟨h, _⟩ | ⟨_, ht, hn, _⟩ | ⟨_, _, c, h⟩
    · exact absurd hp h
    · rcases hu with hu | ⟨home, hu⟩
      · exact absurd ht hu
      · rw [hn] at hu
        cases hu
    · exact ⟨c, h⟩

/-- The suffix ".md" survives `cleanPath`: a cleaned path ends in ".md" and so
does its file part; `strings.TrimSuffix` removes exactly these three bytes; with
a working directory and an empty `--output` the output path ends in ".html" and
differs from the cleaned path and from the input path. -/
theorem md_suffix_survives_with_wd (usr : Option GoString) (wd p cleaned : GoString)
    (hc : cleanPath usr p = .ok cleaned) :
    str ".md" <:+ cleaned
      ∧ str ".md" <:+ (filepath.Split cleaned).2
      ∧ strings.TrimSuffix (filepath.Split cleaned).2 (str ".md") ++ str ".md"
          = (filepath.Split cleaned).2
      ∧ (strings.TrimSuffix (filepath.Split cleaned).2 (str ".md")).length + 3
          = (filepath.Split cleaned).2.length
      ∧ str ".html" <:+ outputFilePath (.ok wd) [] cleaned
      ∧ outputFilePath (.ok wd) [] cleaned ≠ cleaned
      ∧ outputFilePath (.ok wd) [] cleaned ≠ p := by
  obtain ⟨dir, stem, hdir, hsep, rfl⟩ := cleanPath_shape usr p cleaned hc
  have hp := Ext_of_cleanPath_ok hc
  have hmd : str ".md" <:+ dir ++ (stem ++ str ".md") := ⟨dir ++ stem, by simp⟩
  have hsplit := Split_append dir _ hdir (realElem_md hsep).2.1
  obtain ⟨dir2, stem2, -, -, -, hout, -⟩ := outputFilePath_shape wd _ hmd
  have hhtml : str ".html" <:+ outputFilePath (.ok wd) [] (dir ++ (stem ++ str ".md")) :=
    ⟨dir2 ++ stem2, by rw [hout]; simp⟩
  refine ⟨hmd, ?_, ?_, ?_, hhtml, html_ne_md hhtml hmd,
    html_ne_md hhtml ((Ext_eq_md_iff p).mp hp)⟩
  · rw [hsplit]
    exact ⟨stem, rfl⟩
  · rw [hsplit, TrimSuffix_append]
  · rw [hsplit, TrimSuffix_append, str_md]
    simp

/-! ## The claims -/

/-- C1: with an empty `--output`, `outputFilePath` is to return the absolute
form of the path beside the input with ".md" replaced by ".html".  On the
accepted input "docs/a.md" the joined path is "docs/a.html"; when `os.Getwd()`
returns an error, `filepath.Abs` returns "" and that error, the error is
dropped, and `outputFilePath` returns "": not an absolute path, without the
directory and the basename of the input.  With the working directory "/w" the
result is "/w/docs/a.html". -/
theorem outputFilePath_default_getwd_error :
    filepath.Ext (str "docs/a.md") = str ".md"
      ∧ filepath.Join [(filepath.Split (str "docs/a.md")).1,
          strings.TrimSuffix (filepath.Split (str "docs/a.md")).2 (str ".md") ++ str ".html"]
        = str "docs/a.html"
      ∧ filepath.Abs (.error (str "getwd: no such file or directory")) (str "docs/a.html")
        = ([], some (str "getwd: no such file or directory"))
      ∧ outputFilePath (.error (str "getwd: no such file or directory")) [] (str "docs/a.md")
        = []
      ∧ filepath.IsAbs
          (outputFilePath (.error (str "getwd: no such file or directory")) []
            (str "docs/a.md")) = false
      ∧ outputFilePath (.ok (str "/w")) [] (str "docs/a.md") = str "/w/docs/a.html" := by
  refine ⟨by decide, by decide, by decide, by decide, by decide, by decide⟩

/-- C2: `cleanPath` ends in the fatal error "You must provide a markdown (.md)
file." (logged behind the prefix "Error: ") exactly when the path does not end
in ".md": the rejection test `filepath.Ext(p) != ".md"` holds exactly when
".md" is not a suffix of `p`, whatever `user.Current()` returns; every path
ending in ".md" is accepted (with a known user a cleaned path is returned),
every other path is rejected with that message. -/
theorem cleanPath_rejects_iff_not_md (usr : Option GoString) (home p : GoString) :
    (filepath.Ext p ≠ str ".md" ↔ ¬ str ".md" <:+ p)
      ∧ (cleanPath usr p = .fatal (str "Error: You must provide a markdown (.md) file.")
          ↔ ¬ str ".md" <:+ p)
      ∧ ((∃ msg, cleanPath usr p = .fatal msg) ↔ ¬ str ".md" <:+ p)
      ∧ ((∃ cleaned, cleanPath (some home) p = .ok cleaned) ↔ str ".md" <:+ p)
      ∧ str "You must provide a markdown (.md) file."
          <:+ str "Error: You must provide a markdown (.md) file." := by
  have hiff := Ext_eq_md_iff p
  by_cases hp : filepath.Ext p = str ".md"
  · have hs := hiff.mp hp
    have hok := cleanPath_ok home p hp
    have hnf : ∀ msg, cleanPath usr p ≠ .fatal msg := by
      intro msg
      rcases cleanPath_cases usr p with ⟨h, _⟩ | ⟨_, _, _, h⟩ | ⟨_, _, c, h⟩
      · exact absurd hp h
      · rw [h]; simp
      · rw [h]; simp
    refine ⟨by simp [hp, hs], ?_, ?_, ?_, by decide⟩
    · simp [hs, hnf]
    · simp [hs, hnf]
    · rw [hok]; simp [hs]
  · have hs : ¬ str ".md" <:+ p := fun h => hp (hiff.mpr h)
    have hf := cleanPath_fatal usr p hp
    have hf2 := cleanPath_fatal (some home) p hp
    refine ⟨by simp [hp, hs], ?_, ?_, ?_, by decide⟩
    · rw [hf]; simp [hs]
    · rw [hf]; simp [hs]
    · rw [hf2]; simp [hs]

theorem cleanPath_rejects_iff_not_md_witness :
    cleanPath none (str "notes.txt")
      = .fatal (str "Error: You must provide a markdown (.md) file.") :=
  (cleanPath_rejects_iff_not_md none (str "/home/u") (str "notes.txt")).2.1.mpr (by decide)

/-- C3: for a path that begins with "~" and ends in ".md", `cleanPath` returns
`Clean(home ++ p[1:])`, where `home` is the home directory of the current user:
the leading "~", and only it, is replaced.  For an accepted path that does not
begin with "~" it returns `Clean(p)`, wherever else the path holds a "~" and
whatever `user.Current()` returns. -/
theorem cleanPath_tilde_expansion (usr : Option GoString) (home p : GoString)
    (hp : str ".md" <:+ p) :
    (str "~" <+: p → cleanPath (some home) p = .ok (filepath.Clean (home ++ p.drop 1)))
      ∧ (¬ str "~" <+: p → cleanPath usr p = .ok (filepath.Clean p)) := by
  have hext := (Ext_eq_md_iff p).mpr hp
  constructor
  · intro h
    rw [cleanPath_ok home p hext, if_pos h]
  · intro h
    exact cleanPath_no_tilde usr p hext h

theorem cleanPath_tilde_expansion_witness :
    str ".md" <:+ str "~/x/~y.md" ∧ str "~" <+: str "~/x/~y.md"
      ∧ cleanPath (some (str "/home/u")) (str "~/x/~y.md")
        = .ok (filepath.Clean (str "/home/u" ++ (str "~/x/~y.md").drop 1)) :=
  ⟨by decide, by decide,
    (cleanPath_tilde_expansion none (str "/home/u") (str "~/x/~y.md") (by decide)).1
      (by decide)⟩

/-- C4: a run of `main` that ends in a fatal error makes no call of
`ioutil.WriteFile`; the fatal runs are those with an empty `--input`, with an
input path not ending in ".md", or with a failing read of the cleaned path; and
an input path not ending in ".md" ends in a fatal error with neither a file read
nor a file write. -/
theorem main_fatal_before_write (env : Env) (input output : GoString) :
    ((∃ msg, (main env input output).2 = .fatal msg) →
        ∀ e ∈ (main env input output).1, e.isWrite = false)
      ∧ ((∃ msg, (main env input output).2 = .fatal msg) ↔
          (input = [] ∨ ¬ str ".md" <:+ input
            ∨ ∃ path err, cleanPath env.Current input = .ok path
                ∧ env.ReadFile path = .error err))
      ∧ (¬ str ".md" <:+ input →
          (∃ msg, (main env input output).2 = .fatal msg)
            ∧ ∀ e ∈ (main env input output).1, e.isFileOp = false) := by
  have hiff := Ext_eq_md_iff input
  rcases main_cases env input output with ⟨h0, hm⟩ | ⟨h0, hext, hm⟩
      | ⟨hne, hext, msg, hpanic, hm⟩
      | ⟨path, err, hpath, hread, hm⟩ | ⟨path, raw, hpath, hread, hm⟩
  · subst h0
    refine ⟨?_, ?_, ?_⟩
    · intro _ e he
      rw [hm] at he
      simp at he
    · rw [hm]; simp
    · intro _
      rw [hm]
      simp
  · have hs : ¬ str ".md" <:+ input := fun h => hext (hiff.mpr h)
    refine ⟨?_, ?_, ?_⟩
    · intro _ e he
      rw [hm] at he
      simp at he
      subst he
      rfl
    · rw [hm]; simp [hs]
    · intro _
      rw [hm]
      simp [Event.isFileOp, Event.isRead, Event.isWrite]
  · have hs : str ".md" <:+ input := hiff.mp hext
    refine ⟨?_, ?_, ?_⟩
    · rintro ⟨m, hmsg⟩
      rw [hm] at hmsg
      cases hmsg
    · rw [hm]
      simp only [reduceCtorEq, exists_false, false_iff, not_or, not_not, not_exists, not_and]
      refine ⟨hne, hs, ?_⟩
      intro path1 err1 hpath1
      rw [hpanic] at hpath1
      cases hpath1
    · intro hn
      exact absurd hs hn
  · have hs : str ".md" <:+ input := hiff.mp (Ext_of_cleanPath_ok hpath)
    refine ⟨?_, ?_, ?_⟩
    · intro _ e he
      rw [hm] at he
      simp at he
      rcases he with he | he | he <;> subst he <;> rfl
    · rw [hm]
      simp only [Outcome.fatal.injEq, exists_eq', true_iff]
      exact Or.inr (Or.inr ⟨path, err, hpath, hread⟩)
    · intro hn
      exact absurd hs hn
  · have hs : str ".md" <:+ input := hiff.mp (Ext_of_cleanPath_ok hpath)
    have hne : input ≠ [] := ne_nil_of_cleanPath_ok hpath
    refine ⟨?_, ?_, ?_⟩
    · rintro ⟨msg, hmsg⟩
      rw [hm] at hmsg
      cases hmsg
    · rw [hm]
      simp only [reduceCtorEq, exists_false, false_iff, not_or, not_not, not_exists, not_and]
      refine ⟨hne, hs, ?_⟩
      intro path1 err1 hpath1 hread1
      rw [hpath] at hpath1
      cases hpath1
      rw [hread] at hread1
      cases hread1
    · intro hn
      exact absurd hs hn

theorem main_fatal_before_write_witness :
    ∃ msg, (main exampleEnv (str "notes.txt") []).2 = Outcome.fatal msg :=
  ((main_fatal_before_write exampleEnv (str "notes.txt") []).2.2 (by decide)).1

/-- C5: with an empty `--input` (an absent flag has the value ""), `main` ends
in the fatal error "You must provide a path to your markdown file" (logged
behind the prefix "Error: ") before any call: not of `cleanPath`, not of
`outputFilePath`, no read, no rendering, no write.  With a non-empty `--input`
the first thing `main` does is the call of `cleanPath` on it. -/
theorem main_missing_input (env : Env) (input output : GoString) :
    (input = [] →
        main env input output
          = ([], .fatal (str "Error: You must provide a path to your markdown file")))
      ∧ (input ≠ [] → (main env input output).1.head? = some (Event.cleanPath input))
      ∧ str "You must provide a path to your markdown file"
          <:+ str "Error: You must provide a path to your markdown file" := by
  refine ⟨?_, ?_, by decide⟩
  · intro h
    subst h
    exact main_empty env output
  · intro hne
    rcases main_cases env input output with ⟨h0, _⟩ | ⟨_, hext, hm⟩
        | ⟨_, _, msg, _, hm⟩
        | ⟨path, err, hpath, hread, hm⟩ | ⟨path, raw, hpath, hread, hm⟩
    · exact absurd h0 hne
    · rw [hm]; rfl
    · rw [hm]; rfl
    · rw [hm]; rfl
    · rw [hm]; rfl

theorem main_missing_input_witness :
    main exampleEnv [] (str "out.html")
      = ([], .fatal (str "Error: You must provide a path to your markdown file")) :=
  (main_missing_input exampleEnv [] (str "out.html")).1 rfl

/-- C6: on a run of `main` with an input ending in ".md" whose cleaned path is
readable, the calls are, in this order: `cleanPath`, `outputFilePath`, one
`ioutil.ReadFile` of the cleaned path, the renderer on the bytes read (with the
constants `htmlFlags` and `extensions`), `fmt.Printf`, and one
`ioutil.WriteFile` to `outputFilePath(output, cleanPath(input))` of the renderer
output with mode 0644; the run returns normally.  The cleaned path exists
whenever the input has no leading "~" or the current user is known. -/
theorem main_one_read_one_write (env : Env) (input output : GoString)
    (hmd : str ".md" <:+ input) :
    ((¬ str "~" <+: input ∨ ∃ home, env.Current = some home) →
        ∃ path, cleanPath env.Current input = .ok path)
      ∧ ∀ path raw, cleanPath env.Current input = .ok path → env.ReadFile path = .ok raw →
        main env input output
            = ([.cleanPath input, .outputFilePath output path, .readFile path,
                .markdownOptions raw,
                .printf (progressMessage (filepath.Base path)
                  (outputFilePath env.Getwd output path)),
                .writeFile (outputFilePath env.Getwd output path)
                  (env.bf.MarkdownOptions raw (htmlFlags env.bf) [] [] (extensions env.bf))
                  0o644],
                .returned)
          ∧ (main env input output).1.filter Event.isFileOp
            = [.readFile path,
                .writeFile (outputFilePath env.Getwd output path)
                  (env.bf.MarkdownOptions raw (htmlFlags env.bf) [] [] (extensions env.bf))
                  0o644]
          ∧ ((main env input output).1.filter Event.isRead).length = 1
          ∧ ((main env input output).1.filter Event.isWrite).length = 1 := by
  have hext := (Ext_eq_md_iff input).mpr hmd
  refine ⟨fun hu => (cleanPath_index_safe env.Current input).2.2.2 hext hu, ?_⟩
  intro path raw hpath hread
  have hm := main_read_ok env input output _ raw hpath hread
  refine ⟨hm, ?_, ?_, ?_⟩ <;> rw [hm] <;> rfl

theorem main_one_read_one_write_witness :
    str ".md" <:+ str "~/a.md"
      ∧ cleanPath exampleEnv.Current (str "~/a.md") = .ok (str "/home/u/a.md")
      ∧ (main exampleEnv (str "~/a.md") []).1.filter Event.isFileOp
          = [.readFile (str "/home/u/a.md"),
              .writeFile (str "/home/u/a.html") (str "<p>hi</p>") 0o644] := by
  have hc : cleanPath exampleEnv.Current (str "~/a.md") = .ok (str "/home/u/a.md") := by
    decide
  refine ⟨by decide, hc, ?_⟩
  rw [((main_one_read_one_write exampleEnv (str "~/a.md") [] (by decide)).2
    (str "/home/u/a.md") (str "hi") hc rfl).2.1]
  decide

/-- C7: the result of `ioutil.WriteFile` has no part in a run of `main`: two
environments that differ only in what writes return give the same calls and the
same end, and every run that reaches the write returns normally, the write
being its last call. -/
theorem main_ignores_write_error (usr : Option GoString) (getwd : Except GoString GoString)
    (readFile : GoString → Except GoString GoString)
    (writeFile1 writeFile2 : GoString → GoString → Nat → Option GoString)
    (bf : Blackfriday) (input output : GoString) :
    main ⟨usr, getwd, readFile, writeFile1, bf⟩ input output
        = main ⟨usr, getwd, readFile, writeFile2, bf⟩ input output
      ∧ ∀ e ∈ (main ⟨usr, getwd, readFile, writeFile1, bf⟩ input output).1,
          e.isWrite = true →
          (main ⟨usr, getwd, readFile, writeFile1, bf⟩ input output).2 = .returned
            ∧ (main ⟨usr, getwd, readFile, writeFile1, bf⟩ input output).1.getLast?
                = some e := by
  refine ⟨rfl, ?_⟩
  intro e he hw
  rcases main_cases ⟨usr, getwd, readFile, writeFile1, bf⟩ input output with ⟨h0, hm⟩
      | ⟨h0, hext, hm⟩ | ⟨_, _, msg, _, hm⟩
      | ⟨path, err, hpath, hread, hm⟩ | ⟨path, raw, hpath, hread, hm⟩
  · rw [hm] at he
    simp at he
  · rw [hm] at he
    simp at he
    subst he
    cases hw
  · rw [hm] at he
    simp at he
    subst he
    cases hw
  · rw [hm] at he
    simp at he
    rcases he with he | he | he <;> subst he <;> cases hw
  · rw [hm] at he ⊢
    simp at he
    rcases he with he | he | he | he | he | he <;>
      (subst he; first | exact ⟨rfl, rfl⟩ | cases hw)

theorem main_ignores_write_error_witness :
    main ⟨some (str "/home/u"), .ok (str "/w"), exampleReadFile, writeOk, exampleBf⟩
        (str "~/a.md") []
      = main ⟨some (str "/home/u"), .ok (str "/w"), exampleReadFile, writeDenied, exampleBf⟩
          (str "~/a.md") [] :=
  (main_ignores_write_error (some (str "/home/u")) (.ok (str "/w")) exampleReadFile writeOk
    writeDenied exampleBf (str "~/a.md") []).1

/-- C8: with a non-empty `--output` value `o`, `outputFilePath` returns the path
result of `filepath.Abs(o)` whatever the input path is; the result depends on
the input path only when `o` is empty; no ".html" suffix is added: the output
"out.txt" in the directory "/w" gives "/w/out.txt". -/
theorem outputFilePath_explicit (getwd : Except GoString GoString) (o p : GoString)
    (ho : o ≠ []) :
    outputFilePath getwd o p = (filepath.Abs getwd o).1
      ∧ (∀ p1, outputFilePath getwd o p1 = outputFilePath getwd o p)
      ∧ outputFilePath (.ok (str "/w")) (str "out.txt") p = str "/w/out.txt"
      ∧ ¬ str ".html" <:+ outputFilePath (.ok (str "/w")) (str "out.txt") p := by
  have h : ∀ g o1 q, o1 ≠ [] → outputFilePath g o1 q = (filepath.Abs g o1).1 := by
    intro g o1 q h1
    simp [outputFilePath, h1]
  have hex : outputFilePath (.ok (str "/w")) (str "out.txt") p = str "/w/out.txt" := by
    rw [h _ _ _ (by decide)]
    decide
  refine ⟨h getwd o p ho, fun p1 => by rw [h getwd o p1 ho, h getwd o p ho], hex, ?_⟩
  rw [hex]
  decide

theorem outputFilePath_explicit_witness :
    str "site/index.htm" ≠ []
      ∧ outputFilePath (.ok (str "/w")) (str "site/index.htm") (str "docs/a.md")
          = (filepath.Abs (.ok (str "/w")) (str "site/index.htm")).1 :=
  ⟨by decide,
    (outputFilePath_explicit (.ok (str "/w")) (str "site/index.htm") (str "docs/a.md")
      (by decide)).1⟩

/-- C9: `cleanPath` is to return on every input that passes the extension test.
The path "~/a.md" passes it and has a first byte, so the index expression
`(*pathPtr)[0]` is in range; but when `user.Current()` returns an error,
`expandTilde` drops it and reads `HomeDir` of the nil `usr`: `cleanPath` panics
and returns no path, and the run of `main` ends in that panic after the call of
`cleanPath`. -/
theorem cleanPath_nil_user_panic :
    filepath.Ext (str "~/a.md") = str ".md"
      ∧ (str "~/a.md").head? = some 126
      ∧ cleanPath none (str "~/a.md")
        = .panic (str "runtime error: invalid memory address or nil pointer dereference")
      ∧ (∀ cleaned, cleanPath none (str "~/a.md") ≠ .ok cleaned)
      ∧ main noUserEnv (str "~/a.md") []
        = ([.cleanPath (str "~/a.md")],
            .panic (str "runtime error: invalid memory address or nil pointer dereference"))
      ∧ cleanPath (some (str "/home/u")) (str "~/a.md") = .ok (str "/home/u/a.md") := by
  have h : cleanPath none (str "~/a.md")
      = .panic (str "runtime error: invalid memory address or nil pointer dereference") := by
    decide
  refine ⟨by decide, by decide, h, ?_, by decide, by decide⟩
  intro cleaned
  rw [h]
  simp

/-- C10: with an empty `--output` the output path is to end in ".html".  The
accepted path "a.md" is cleaned to "a.md"; when `os.Getwd()` returns an error,
`filepath.Abs` fails on the relative path "a.html", the error is dropped, and
the output path is "": it does not end in ".html".  With the working directory
"/w" it is "/w/a.html". -/
theorem output_suffix_lost_on_getwd_error :
    cleanPath (some (str "/home/u")) (str "a.md") = .ok (str "a.md")
      ∧ str ".md" <:+ str "a.md"
      ∧ outputFilePath (.error (str "getwd: no such file or directory")) [] (str "a.md") = []
      ∧ ¬ str ".html"
          <:+ outputFilePath (.error (str "getwd: no such file or directory")) [] (str "a.md")
      ∧ outputFilePath (.ok (str "/w")) [] (str "a.md") = str "/w/a.html" := by
  refine ⟨by decide, by decide, by decide, by decide, by decide⟩

end MarkdownTool
